import Mathlib

/-!
Verification development for the Discord-to-Notion ticket bot (`main.py`).

The bot mirrors ticket channels of a chat server into records of a remote
database.  We give a shallow embedding of its pure logic:

* the whitespace and URL-scheme tests of the compiled regex
  `(.*?)(https?://[^\s]+)` and the scanning behaviour of `re.findall`,
* `split_message_by_link`, including the `parts[-1]` access and the
  `str.split` call (fallible paths are modelled with `Option`),
* the channel-name classification `get_channel_info` (the two channel-name
  regexes are deployment configuration, so they are modelled abstractly as
  functions returning the number captured by their first group),
* the event handlers `on_guild_channel_create`, `on_guild_channel_delete`,
  `on_guild_channel_update`, `on_message` and their helpers, as explicit
  state transformers over the in-memory ticket store, the save file and a
  log of attempted remote calls; a Python exception escaping a handler is
  modelled by the `exn` field of the result.

Strings are `List Char`.  Text from the source is quoted in comments next to
the definition embedding it.
-/

/-- Whitespace test of Python's `\s` class for `str` patterns
(`[ \t\n\r\f\v]` plus the Unicode white-space code points). -/
def isWs (c : Char) : Bool :=
  c.val == 0x20 || (0x9 ≤ c.val && c.val ≤ 0xD) || (0x1C ≤ c.val && c.val ≤ 0x1F) ||
  c.val == 0x85 || c.val == 0xA0 || c.val == 0x1680 ||
  (0x2000 ≤ c.val && c.val ≤ 0x200A) ||
  c.val == 0x2028 || c.val == 0x2029 || c.val == 0x202F || c.val == 0x205F || c.val == 0x3000

/-- The characters of the literal regex piece `http://`. -/
def schemeHttp : List Char := ['h', 't', 't', 'p', ':', '/', '/']

/-- The characters of the literal regex piece `https://`. -/
def schemeHttps : List Char := ['h', 't', 't', 'p', 's', ':', '/', '/']

/-- `true` when the list starts with a non-whitespace character.  Used for the
mandatory first character of `[^\s]+`. -/
def nonWsAfter (l : List Char) : Bool :=
  match l with
  | c :: _ => !(isWs c)
  | [] => false

/-- `urlStart l` holds when a match of `https?://[^\s]+` begins at the head of
`l`: one of the two scheme spellings followed by at least one
non-whitespace character. -/
def urlStart (l : List Char) : Bool :=
  (schemeHttps.isPrefixOf l && nonWsAfter (l.drop 8)) ||
  (schemeHttp.isPrefixOf l && nonWsAfter (l.drop 7))

/-- One scanning step of `URL_REGEX_COMPILED.findall`: starting from the
current position, find the leftmost match of `(.*?)(https?://[^\s]+)`.
`acc` holds (reversed) the characters accumulated for the lazy group
`(.*?)`; since `.` does not match a newline, the accumulator restarts after
each `'\n'`.  On a match it returns the two groups — the text captured by
`(.*?)` and the maximal non-whitespace run forming the URL — together with
the rest of the input; `none` when no further match exists. -/
def scanNext (acc : List Char) : List Char → Option (List Char × List Char × List Char)
  | [] => none
  | c :: rest =>
    if urlStart (c :: rest) then
      some (acc.reverse, (c :: rest).takeWhile (fun x => !(isWs x)),
            (c :: rest).dropWhile (fun x => !(isWs x)))
    else if c = '\n' then scanNext [] rest
    else scanNext (c :: acc) rest

/-- Fuelled iteration of `scanNext`, producing the list of `(group 1, group 2)`
pairs exactly as `URL_REGEX_COMPILED.findall(message)` does. -/
def findallFuel : Nat → List Char → List (List Char × List Char)
  | 0, _ => []
  | fuel + 1, l =>
    match scanNext [] l with
    | none => []
    | some (p, u, r) => (p, u) :: findallFuel fuel r

/-- `URL_REGEX_COMPILED.findall(message)` (line 99 of `main.py`).  The fuel
`l.length + 1` is sufficient because every match consumes at least one
character. -/
def findall (l : List Char) : List (List Char × List Char) :=
  findallFuel (l.length + 1) l

/-- The unscanned remainder of the input after the last `findall` match (the
text following the final URL; the whole input when there is no match). -/
def findallRestFuel : Nat → List Char → List Char
  | 0, l => l
  | fuel + 1, l =>
    match scanNext [] l with
    | none => l
    | some (_, _, r) => findallRestFuel fuel r

/-- Companion of `findall`: the suffix of the input left after all matches. -/
def findallRest (l : List Char) : List Char :=
  findallRestFuel (l.length + 1) l

/-- Leftmost occurrence of `sep` in `l` in the style of `str.find`: returns the
suffix of `l` just after the first occurrence, `none` when `sep` does not
occur. -/
def firstOcc (sep : List Char) : List Char → Option (List Char)
  | [] => none
  | c :: rest =>
    if sep.isPrefixOf (c :: rest) then some ((c :: rest).drop sep.length)
    else firstOcc sep rest

/-- Fuelled computation of the last element of `l.split(sep)` (Python
semantics: repeatedly cut at the leftmost occurrence of `sep`; the final
piece is the text after the last non-overlapping occurrence). -/
def lastPieceFuel : Nat → List Char → List Char → List Char
  | 0, _, l => l
  | fuel + 1, sep, l =>
    match firstOcc sep l with
    | none => l
    | some r => lastPieceFuel fuel sep r

/-- `message.split(sep)[-1]` for a non-empty separator.  The fuel
`l.length + 1` is sufficient because each occurrence consumes at least one
character. -/
def lastPiece (sep l : List Char) : List Char :=
  lastPieceFuel (l.length + 1) sep l

/-- The loop of lines 105–110 of `main.py`: for each match append `match[0]`
if it is non-empty, then `match[1]` if it is non-empty. -/
def buildParts (ms : List (List Char × List Char)) : List (List Char) :=
  ms.foldl
    (fun parts m =>
      (parts ++ (if m.1 = [] then [] else [m.1])) ++ (if m.2 = [] then [] else [m.2]))
    []

/-- `split_message_by_link` (lines 98–117 of `main.py`).  The two fallible
operations are modelled with `Option`: `parts[-1]` on an empty list would
raise `IndexError`, and `str.split` with an empty separator would raise
`ValueError`; either gives `none`. -/
def split_message_by_link (message : List Char) : Option (List (List Char)) :=
  if findall message = [] then some [message]
  else
    match (buildParts (findall message)).getLast? with
    | none => none
    | some lastPart =>
      if lastPart = [] then none
      else if lastPiece lastPart message = [] then some (buildParts (findall message))
      else some (buildParts (findall message) ++ [lastPiece lastPart message])

/-!  ## Channel classification and the event handlers  -/

/-- The classification returned by `get_channel_info` together with the ticket
number `int(res.group(1))` extracted from the matching pattern (mirrors the
`ChannelType` enum plus the second tuple component, which is present exactly
when the name matched one of the two patterns). -/
inductive ChannelInfo where
  | OPEN_TICKET (n : Nat)
  | CLOSED_TICKET (n : Nat)
  | UNKNOWN
deriving DecidableEq

/-- Configuration read from the environment.  Modelled from the spec: the two
channel-name regexes `DISCORD_OPEN_TICKET_CHANNEL_NAME_REGEX` and
`DISCORD_CLOSED_TICKET_CHANNEL_NAME_REGEX` are deployment configuration and
are not part of the repository; per the spec, "Channel names are matched
against two configured patterns; the first capturing group yields the ticket
number", so each matcher returns `some n` with `n` the number captured by
group 1 when the pattern matches, `none` otherwise. -/
structure BotConfig where
  open_matcher : List Char → Option Nat
  closed_matcher : List Char → Option Nat
  ticket_bot_id : Int
  ticket_start_message : List Char

/-- `get_channel_info` (lines 120–126): try the open-ticket pattern first,
then the closed-ticket pattern (`cached_regex` is an `lru_cache` over the
pure `pattern.match`, hence semantically the match itself). -/
def get_channel_info (cfg : BotConfig) (name : List Char) : ChannelInfo :=
  match cfg.open_matcher name with
  | some n => ChannelInfo.OPEN_TICKET n
  | none =>
    match cfg.closed_matcher name with
    | some n => ChannelInfo.CLOSED_TICKET n
    | none => ChannelInfo.UNKNOWN

/-- A user mention carried by a message (we only ever read `mention.name`). -/
structure Mention where
  name : List Char
deriving DecidableEq

/-- The fields of a Discord message that the bot reads. -/
structure DiscordMessage where
  content : List Char
  author_id : Int
  author_name : List Char
  mentions : List Mention
  attachments : List (List Char)
  channel_name : List Char
deriving DecidableEq

/-- `get_mentioned_users` (lines 129–130). -/
def get_mentioned_users (msg : DiscordMessage) : List (List Char) :=
  msg.mentions.map Mention.name

/-- The in-memory `TICKET_TO_PAGE_ID` dictionary.  Assignment is modelled by
prepending; lookup takes the most recent binding. -/
abbrev Store := List (Nat × List Char)

/-- `TICKET_TO_PAGE_ID[k]` as a partial lookup. -/
def dictGet? (d : Store) (k : Nat) : Option (List Char) :=
  (d.find? (fun p => p.1 == k)).map Prod.snd

/-- `TICKET_TO_PAGE_ID[k] = v`. -/
def dictSet (d : Store) (k : Nat) (v : List Char) : Store :=
  (k, v) :: d

/-- The line `f"{ticket_number},{page_id}"` appended to the save file. -/
def saveLine (n : Nat) (pid : List Char) : List Char :=
  Nat.toDigits 10 n ++ ',' :: pid

/-- Outcome of one call to the Notion client: the created/updated payload id,
or an exception raised by the client. -/
inductive NotionResult where
  | ok (page_id : List Char)
  | err
deriving DecidableEq

/-- A rich-text element built by `handle_content_update`. -/
inductive RichText where
  | boldText (s : List Char)
  | linkText (s : List Char)
  | plainText (s : List Char)
deriving DecidableEq

/-- A remote API call attempted by a handler (recorded whether or not the call
succeeds). -/
inductive RemoteCall where
  | pagesCreate (ticket : Nat)
  | pagesUpdateAuthor (page_id : List Char) (username : List Char)
  | pagesUpdateClosed (page_id : List Char)
  | blocksAppend (page_id : List Char) (rich_texts : List RichText)
      (image_urls : List (List Char))
deriving DecidableEq

/-- A Python exception escaping a handler uncaught. -/
inductive PyErr where
  | keyError
deriving DecidableEq

/-- Result of running one event handler: the global state afterwards (ticket
store and save-file lines), the remote calls attempted, and `exn = some e`
when an exception propagates out of the handler.  Since no handler mutates
state after a raising expression, the state fields on the `some` case are the
untouched globals. -/
structure HandlerResult where
  store : Store
  file : List (List Char)
  calls : List RemoteCall
  exn : Option PyErr
deriving DecidableEq

/-- Python substring test `needle in hay`. -/
def listContains (needle : List Char) : List Char → Bool
  | [] => needle.isEmpty
  | c :: rest => needle.isPrefixOf (c :: rest) || listContains needle rest

/-- `handle_author_resolution` (lines 133–157).  An empty mention list is
logged and skipped.  The `logger.info` f-string on line 144 and the
assignment on line 147 read `TICKET_TO_PAGE_ID[ticket_number]` outside the
`try`, so a missing key raises `KeyError` out of the handler.  The
`notion.pages.update` call sits inside `try/except Exception`, so its
failure is logged and swallowed. -/
def handle_author_resolution (msg : DiscordMessage) (ticket_number : Nat)
    (res : NotionResult) (store : Store) (file : List (List Char)) : HandlerResult :=
  match get_mentioned_users msg with
  | [] => ⟨store, file, [], none⟩
  | username :: _ =>
    match dictGet? store ticket_number with
    | none => ⟨store, file, [], some PyErr.keyError⟩
    | some page_id =>
      match res with
      | NotionResult.ok _ => ⟨store, file, [RemoteCall.pagesUpdateAuthor page_id username], none⟩
      | NotionResult.err => ⟨store, file, [RemoteCall.pagesUpdateAuthor page_id username], none⟩

/-- `handle_content_update` (lines 185–239).  The whole body, including the
`TICKET_TO_PAGE_ID[ticket_number]` lookup and `split_message_by_link`, is
inside `try/except Exception`, so every failure is logged and swallowed. -/
def handle_content_update (msg : DiscordMessage) (ticket_number : Nat)
    (res : NotionResult) (store : Store) (file : List (List Char)) : HandlerResult :=
  match dictGet? store ticket_number with
  | none => ⟨store, file, [], none⟩
  | some page_id =>
    match split_message_by_link msg.content with
    | none => ⟨store, file, [], none⟩
    | some message_parts =>
      let rich_texts :=
        RichText.boldText (msg.author_name ++ [':', ' ']) ::
          message_parts.map (fun part =>
            if ['h', 't', 't', 'p'].isPrefixOf part then RichText.linkText part
            else RichText.plainText part)
      match res with
      | NotionResult.ok _ =>
          ⟨store, file, [RemoteCall.blocksAppend page_id rich_texts msg.attachments], none⟩
      | NotionResult.err =>
          ⟨store, file, [RemoteCall.blocksAppend page_id rich_texts msg.attachments], none⟩

/-- `on_guild_channel_create` (lines 248–274).  On an open-ticket name the
handler creates a remote record; on success it stores the returned id in
`TICKET_TO_PAGE_ID` (unconditionally assigning, even when the number is
already present) and appends `f"{ticket_number},{page_id}\n"` to the save
file.  A failing create is caught, logged, and leaves the state unchanged. -/
def on_guild_channel_create (cfg : BotConfig) (channel_name : List Char)
    (res : NotionResult) (store : Store) (file : List (List Char)) : HandlerResult :=
  match get_channel_info cfg channel_name with
  | ChannelInfo.OPEN_TICKET ticket_number =>
    match res with
    | NotionResult.ok page_id =>
        ⟨dictSet store ticket_number page_id,
         file ++ [saveLine ticket_number page_id],
         [RemoteCall.pagesCreate ticket_number], none⟩
    | NotionResult.err => ⟨store, file, [RemoteCall.pagesCreate ticket_number], none⟩
  | _ => ⟨store, file, [], none⟩

/-- `on_guild_channel_delete` (lines 277–296).  The dictionary lookup is inside
the `try`, so both a missing key and a failing update are caught. -/
def on_guild_channel_delete (cfg : BotConfig) (channel_name : List Char)
    (res : NotionResult) (store : Store) (file : List (List Char)) : HandlerResult :=
  match get_channel_info cfg channel_name with
  | ChannelInfo.OPEN_TICKET ticket_number =>
    match dictGet? store ticket_number with
    | none => ⟨store, file, [], none⟩
    | some page_id =>
      match res with
      | NotionResult.ok _ => ⟨store, file, [RemoteCall.pagesUpdateClosed page_id], none⟩
      | NotionResult.err => ⟨store, file, [RemoteCall.pagesUpdateClosed page_id], none⟩
  | _ => ⟨store, file, [], none⟩

/-- `on_guild_channel_update` (lines 299–321): only an open-ticket name renamed
to a closed-ticket name triggers the status update; the lookup and the call
are inside the `try`. -/
def on_guild_channel_update (cfg : BotConfig) (before_name after_name : List Char)
    (res : NotionResult) (store : Store) (file : List (List Char)) : HandlerResult :=
  match get_channel_info cfg before_name with
  | ChannelInfo.OPEN_TICKET _ =>
    match get_channel_info cfg after_name with
    | ChannelInfo.CLOSED_TICKET ticket_number =>
      match dictGet? store ticket_number with
      | none => ⟨store, file, [], none⟩
      | some page_id =>
        match res with
        | NotionResult.ok _ => ⟨store, file, [RemoteCall.pagesUpdateClosed page_id], none⟩
        | NotionResult.err => ⟨store, file, [RemoteCall.pagesUpdateClosed page_id], none⟩
    | _ => ⟨store, file, [], none⟩
  | _ => ⟨store, file, [], none⟩

/-- `on_message` (lines 324–346): unknown channels are ignored; in an open
ticket, a bot message containing `DISCORD_TICKET_START_MESSAGE` triggers
author resolution, a non-bot message triggers the content append, and
anything else (in particular every message in a closed ticket) does
nothing. -/
def on_message (cfg : BotConfig) (msg : DiscordMessage) (res : NotionResult)
    (store : Store) (file : List (List Char)) : HandlerResult :=
  match get_channel_info cfg msg.channel_name with
  | ChannelInfo.UNKNOWN => ⟨store, file, [], none⟩
  | ChannelInfo.OPEN_TICKET ticket_number =>
    if msg.author_id == cfg.ticket_bot_id && listContains cfg.ticket_start_message msg.content then
      handle_author_resolution msg ticket_number res store file
    else if msg.author_id != cfg.ticket_bot_id then
      handle_content_update msg ticket_number res store file
    else ⟨store, file, [], none⟩
  | ChannelInfo.CLOSED_TICKET _ => ⟨store, file, [], none⟩

/-!  ## Concrete sample configuration and inputs (used to instantiate the
abstract matchers in witnesses and counterexamples)  -/

/-- A channel name in the shape the spec uses for its end-to-end example. -/
def sampleOpenName : List Char := ['t', 'i', 'c', 'k', 'e', 't', '-', '4', '2']

/-- A closed-ticket channel name for the sample configuration. -/
def sampleClosedName : List Char := ['c', 'l', 'o', 's', 'e', 'd', '-', '7']

/-- A sample deployment configuration: the open pattern matches exactly
`ticket-42` capturing `42`, the closed pattern matches exactly `closed-7`
capturing `7`. -/
def sampleConfig : BotConfig where
  open_matcher := fun name => if name = sampleOpenName then some 42 else none
  closed_matcher := fun name => if name = sampleClosedName then some 7 else none
  ticket_bot_id := 99
  ticket_start_message := ['W', 'e', 'l', 'c', 'o', 'm', 'e']

/-- A sample message with no mentions, arriving in the open ticket channel. -/
def sampleNoMentionMsg : DiscordMessage where
  content := ['W', 'e', 'l', 'c', 'o', 'm', 'e']
  author_id := 99
  author_name := ['b', 'o', 't']
  mentions := []
  attachments := []
  channel_name := sampleOpenName

/-- A sample message arriving in the closed ticket channel. -/
def sampleClosedChannelMsg : DiscordMessage where
  content := ['h', 'i']
  author_id := 5
  author_name := ['u', 's', 'e', 'r']
  mentions := [⟨['u', 's', 'e', 'r']⟩]
  attachments := []
  channel_name := sampleClosedName

/-!  ## Claims about classification and the handlers  -/

/-- Claim C3: for every channel name that matches the configured open-ticket
pattern, `get_channel_info` returns the classification `OPEN_TICKET`
together with the number captured by the pattern's first group (the open
pattern is tried first, so this holds whatever the closed pattern does). -/
theorem get_channel_info_open (cfg : BotConfig) (name : List Char) (n : Nat)
    (h : cfg.open_matcher name = some n) :
    get_channel_info cfg name = ChannelInfo.OPEN_TICKET n := by
  unfold get_channel_info
  rw [h]

/-- Witness for `get_channel_info_open` at the sample configuration. -/
theorem get_channel_info_open_witness :
    get_channel_info sampleConfig sampleOpenName = ChannelInfo.OPEN_TICKET 42 :=
  get_channel_info_open sampleConfig sampleOpenName 42 (by decide)

/-- Counterexample to claim C1 as stated: after a successful creation event has
stored page id `a` for ticket 42, a second successful creation event for the
same ticket number overwrites the stored identifier with the new page id
`b`. -/
theorem ticket_mapping_overwrite_cex :
    dictGet?
      (on_guild_channel_create sampleConfig sampleOpenName (NotionResult.ok ['a']) [] []).store
      42 = some ['a'] ∧
    dictGet?
      (on_guild_channel_create sampleConfig sampleOpenName (NotionResult.ok ['b'])
        (on_guild_channel_create sampleConfig sampleOpenName (NotionResult.ok ['a']) [] []).store
        (on_guild_channel_create sampleConfig sampleOpenName (NotionResult.ok ['a']) [] []).file).store
      42 = some ['b'] := by
  decide

/-- Claim C1, amended: a successful channel-create event for an open-ticket
name rebinds the ticket number to the newly created record id, overwriting
any identifier stored earlier; only a failing creation leaves the store
unchanged. -/
theorem create_rebinds_ticket_on_success (cfg : BotConfig) (name : List Char) (n : Nat)
    (pid : List Char) (store : Store) (file : List (List Char))
    (h : cfg.open_matcher name = some n) :
    dictGet? (on_guild_channel_create cfg name (NotionResult.ok pid) store file).store n
      = some pid ∧
    (on_guild_channel_create cfg name NotionResult.err store file).store = store := by
  constructor
  · unfold on_guild_channel_create
    rw [get_channel_info_open cfg name n h]
    simp [dictGet?, dictSet]
  · unfold on_guild_channel_create
    rw [get_channel_info_open cfg name n h]

/-- Witness for `create_rebinds_ticket_on_success`: ticket 42 already maps to
`a`; a new successful creation rebinds it to `x`, a failing one keeps the
store. -/
theorem create_rebinds_ticket_on_success_witness :
    dictGet?
      (on_guild_channel_create sampleConfig sampleOpenName (NotionResult.ok ['x'])
        [(42, ['a'])] []).store 42 = some ['x'] ∧
    (on_guild_channel_create sampleConfig sampleOpenName NotionResult.err
      [(42, ['a'])] []).store = [(42, ['a'])] :=
  create_rebinds_ticket_on_success sampleConfig sampleOpenName 42 ['x'] [(42, ['a'])] []
    (by decide)

/-- Claim C5: when a channel-create event whose name the open pattern matches
with captured number 42 succeeds remotely with identifier `pid`, the store
afterwards maps 42 to `pid` and the save file ends with the line
`42,<pid>`. -/
theorem create_ticket42_end_to_end (cfg : BotConfig) (name pid : List Char)
    (store : Store) (file : List (List Char))
    (h : cfg.open_matcher name = some 42) :
    dictGet? (on_guild_channel_create cfg name (NotionResult.ok pid) store file).store 42
      = some pid ∧
    (on_guild_channel_create cfg name (NotionResult.ok pid) store file).file.getLast?
      = some (saveLine 42 pid) := by
  unfold on_guild_channel_create
  rw [get_channel_info_open cfg name 42 h]
  constructor
  · simp [dictGet?, dictSet]
  · exact List.getLast?_concat file

/-- Witness for `create_ticket42_end_to_end` at the sample configuration: the
final save-file line is literally `42,p`. -/
theorem create_ticket42_end_to_end_witness :
    dictGet?
      (on_guild_channel_create sampleConfig sampleOpenName (NotionResult.ok ['p']) [] []).store 42
      = some ['p'] ∧
    (on_guild_channel_create sampleConfig sampleOpenName (NotionResult.ok ['p']) [] []).file.getLast?
      = some ['4', '2', ',', 'p'] :=
  create_ticket42_end_to_end sampleConfig sampleOpenName ['p'] [] [] (by decide)

/-- The author-resolution helper propagates or suppresses exactly the same
exception whatever the remote call returns. -/
theorem handle_author_resolution_exn_congr (msg : DiscordMessage) (n : Nat)
    (res res' : NotionResult) (store : Store) (file : List (List Char)) :
    (handle_author_resolution msg n res store file).exn
      = (handle_author_resolution msg n res' store file).exn := by
  unfold handle_author_resolution
  cases get_mentioned_users msg with
  | nil => rfl
  | cons u us =>
    cases dictGet? store n with
    | none => rfl
    | some pid => cases res <;> cases res' <;> rfl

/-- The content-append helper never lets an exception escape: every failure
inside its `try` block (missing key, `IndexError`, failing remote call) is
caught. -/
theorem handle_content_update_exn_none (msg : DiscordMessage) (n : Nat) (res : NotionResult)
    (store : Store) (file : List (List Char)) :
    (handle_content_update msg n res store file).exn = none := by
  unfold handle_content_update
  cases res <;> (repeat' split) <;> rfl

/-- Claim C4: failures of the remote API calls never escape a handler.  The
content-append helper and the channel-delete handler return normally on a
failing call whatever the inputs; the author-resolution helper returns
normally on a failing call whenever the call is reached (some user is
mentioned and the ticket is in the store); and the outcome of the remote
call never changes whether `on_message` raises. -/
theorem remote_failures_caught (cfg : BotConfig) (msg : DiscordMessage) (n : Nat)
    (store : Store) (file : List (List Char)) (name pid : List Char)
    (h1 : get_mentioned_users msg ≠ [])
    (h2 : dictGet? store n = some pid) :
    (handle_content_update msg n NotionResult.err store file).exn = none ∧
    (on_guild_channel_delete cfg name NotionResult.err store file).exn = none ∧
    (handle_author_resolution msg n NotionResult.err store file).exn = none ∧
    (∀ res res', (on_message cfg msg res store file).exn
      = (on_message cfg msg res' store file).exn) := by
  refine ⟨?_, ?_, ?_, ?_⟩
  · exact handle_content_update_exn_none msg n NotionResult.err store file
  · unfold on_guild_channel_delete
    (repeat' split) <;> rfl
  · unfold handle_author_resolution
    cases hm : get_mentioned_users msg with
    | nil => exact absurd hm h1
    | cons u us => rw [h2]
  · intro res res'
    unfold on_message
    split
    · rfl
    · split
      · apply handle_author_resolution_exn_congr
      · split
        · rw [handle_content_update_exn_none, handle_content_update_exn_none]
        · rfl
    · rfl

/-- Witness for `remote_failures_caught` at a concrete store and message with
one mention. -/
theorem remote_failures_caught_witness :
    (handle_content_update sampleClosedChannelMsg 7 NotionResult.err [(7, ['q'])] []).exn = none ∧
    (on_guild_channel_delete sampleConfig sampleOpenName NotionResult.err [(7, ['q'])] []).exn
      = none ∧
    (handle_author_resolution sampleClosedChannelMsg 7 NotionResult.err [(7, ['q'])] []).exn
      = none ∧
    (∀ res res',
      (on_message sampleConfig sampleClosedChannelMsg res [(7, ['q'])] []).exn
        = (on_message sampleConfig sampleClosedChannelMsg res' [(7, ['q'])] []).exn) :=
  remote_failures_caught sampleConfig sampleClosedChannelMsg 7 [(7, ['q'])] []
    sampleOpenName ['q'] (by decide) (by decide)

/-- Claim C7: a resolution-marker message with an empty mention list makes
`handle_author_resolution` log and return at once: no remote call is
attempted, the store and file are untouched, and no exception is raised. -/
theorem author_resolution_no_mention_noop (msg : DiscordMessage) (n : Nat)
    (res : NotionResult) (store : Store) (file : List (List Char))
    (h : get_mentioned_users msg = []) :
    handle_author_resolution msg n res store file = ⟨store, file, [], none⟩ := by
  unfold handle_author_resolution
  rw [h]

/-- Witness for `author_resolution_no_mention_noop` on a mention-free marker
message. -/
theorem author_resolution_no_mention_noop_witness :
    handle_author_resolution sampleNoMentionMsg 42 NotionResult.err [(42, ['a'])] []
      = ⟨[(42, ['a'])], [], [], none⟩ :=
  author_resolution_no_mention_noop sampleNoMentionMsg 42 NotionResult.err [(42, ['a'])] []
    (by decide)

/-- Claim C8: the ticket-to-record store is only ever modified by the
channel-create handler — the delete, rename and message handlers return it
unchanged on every event they process. -/
theorem store_unmodified_by_non_create_handlers (cfg : BotConfig) (msg : DiscordMessage)
    (before_name after_name channel_name : List Char) (res : NotionResult)
    (store : Store) (file : List (List Char)) :
    (on_guild_channel_delete cfg channel_name res store file).store = store ∧
    (on_guild_channel_update cfg before_name after_name res store file).store = store ∧
    (on_message cfg msg res store file).store = store := by
  refine ⟨?_, ?_, ?_⟩
  · unfold on_guild_channel_delete
    cases res <;> (repeat' split) <;> rfl
  · unfold on_guild_channel_update
    cases res <;> (repeat' split) <;> rfl
  · unfold on_message handle_author_resolution handle_content_update
    cases res <;> (repeat' split) <;> rfl

/-- Claim C9: a message arriving in a channel classified as a closed ticket
makes `on_message` do nothing at all: no helper runs, no remote call is
attempted, the state is unchanged and no exception is raised. -/
theorem on_message_closed_ticket_noop (cfg : BotConfig) (msg : DiscordMessage)
    (res : NotionResult) (store : Store) (file : List (List Char)) (n : Nat)
    (h : get_channel_info cfg msg.channel_name = ChannelInfo.CLOSED_TICKET n) :
    on_message cfg msg res store file = ⟨store, file, [], none⟩ := by
  unfold on_message
  rw [h]

/-- Witness for `on_message_closed_ticket_noop` on a user message in the sample
closed channel. -/
theorem on_message_closed_ticket_noop_witness :
    on_message sampleConfig sampleClosedChannelMsg NotionResult.err [(7, ['q'])] []
      = ⟨[(7, ['q'])], [], [], none⟩ :=
  on_message_closed_ticket_noop sampleConfig sampleClosedChannelMsg NotionResult.err
    [(7, ['q'])] [] 7 (by decide)

/-!  ## Basic facts about the regex scan  -/

/-- Every character of `http://` is non-whitespace. -/
theorem schemeHttp_nonWs : ∀ c ∈ schemeHttp, isWs c = false := by decide

/-- Every character of `https://` is non-whitespace. -/
theorem schemeHttps_nonWs : ∀ c ∈ schemeHttps, isWs c = false := by decide

/-- Characterisation of `urlStart`: a scheme spelling followed by one
non-whitespace character. -/
theorem urlStart_iff (l : List Char) :
    urlStart l = true ↔
      ∃ c t, (l = schemeHttp ++ c :: t ∨ l = schemeHttps ++ c :: t) ∧ isWs c = false := by
  constructor
  · intro h
    unfold urlStart at h
    rcases Bool.or_eq_true_iff.mp h with h' | h'
    · obtain ⟨h1, h2⟩ := Bool.and_eq_true_iff.mp h'
      obtain ⟨t, ht⟩ := List.isPrefixOf_iff_prefix.mp h1
      have hdrop : l.drop 8 = t := by
        rw [← ht]
        exact List.drop_left schemeHttps t
      rw [hdrop] at h2
      cases t with
      | nil => simp [nonWsAfter] at h2
      | cons c t' =>
        refine ⟨c, t', Or.inr ht.symm, ?_⟩
        unfold nonWsAfter at h2
        simpa using h2
    · obtain ⟨h1, h2⟩ := Bool.and_eq_true_iff.mp h'
      obtain ⟨t, ht⟩ := List.isPrefixOf_iff_prefix.mp h1
      have hdrop : l.drop 7 = t := by
        rw [← ht]
        exact List.drop_left schemeHttp t
      rw [hdrop] at h2
      cases t with
      | nil => simp [nonWsAfter] at h2
      | cons c t' =>
        refine ⟨c, t', Or.inl ht.symm, ?_⟩
        unfold nonWsAfter at h2
        simpa using h2
  · rintro ⟨c, t, hform, hc⟩
    unfold urlStart
    rcases hform with hform | hform
    · apply Bool.or_eq_true_iff.mpr
      right
      apply Bool.and_eq_true_iff.mpr
      constructor
      · exact List.isPrefixOf_iff_prefix.mpr ⟨c :: t, hform.symm⟩
      · rw [hform, show (7 : Nat) = schemeHttp.length from rfl, List.drop_left]
        unfold nonWsAfter
        simpa using hc
    · apply Bool.or_eq_true_iff.mpr
      left
      apply Bool.and_eq_true_iff.mpr
      constructor
      · exact List.isPrefixOf_iff_prefix.mpr ⟨c :: t, hform.symm⟩
      · rw [hform, show (8 : Nat) = schemeHttps.length from rfl, List.drop_left]
        unfold nonWsAfter
        simpa using hc

/-- A URL start survives appending text to the right. -/
theorem urlStart_append (u b : List Char) (h : urlStart u = true) :
    urlStart (u ++ b) = true := by
  obtain ⟨c, t, hform, hc⟩ := (urlStart_iff u).mp h
  apply (urlStart_iff (u ++ b)).mpr
  rcases hform with hform | hform
  · exact ⟨c, t ++ b, Or.inl (by rw [hform]; simp), hc⟩
  · exact ⟨c, t ++ b, Or.inr (by rw [hform]; simp), hc⟩

/-- The empty list is not a URL start. -/
theorem urlStart_nil : urlStart [] = false := by decide

/-- A list starting a URL starts with `'h'`. -/
theorem urlStart_head (c : Char) (l : List Char) (h : urlStart (c :: l) = true) :
    c = 'h' := by
  obtain ⟨c', t, hform, _⟩ := (urlStart_iff (c :: l)).mp h
  rcases hform with hform | hform <;>
    · rw [show c :: l = [c] ++ l from rfl] at hform
      injection hform

/-- The remainder returned by a successful scan step is shorter than the
input. -/
theorem scanNext_length : ∀ (acc l : List Char) (p u r : List Char),
    scanNext acc l = some (p, u, r) → r.length < l.length := by
  intro acc l
  induction l generalizing acc with
  | nil => intro p u r h; simp [scanNext] at h
  | cons c rest ih =>
    intro p u r h
    unfold scanNext at h
    by_cases hu : urlStart (c :: rest) = true
    · rw [if_pos hu] at h
      simp only [Option.some.injEq, Prod.mk.injEq] at h
      obtain ⟨-, -, hr⟩ := h
      have hc : c = 'h' := urlStart_head c rest hu
      have hq : (fun x => !(isWs x)) c = true := by
        subst hc; decide
      rw [List.dropWhile_cons, if_pos hq] at hr
      rw [← hr]
      exact Nat.lt_succ_of_le (List.dropWhile_suffix (fun x => !(isWs x))).length_le
    · rw [if_neg hu] at h
      by_cases hc : c = '\n'
      · rw [if_pos hc] at h
        exact Nat.lt_succ_of_lt (ih [] p u r h)
      · rw [if_neg hc] at h
        exact Nat.lt_succ_of_lt (ih (c :: acc) p u r h)

/-- The remainder returned by a successful scan step is a suffix of the
input. -/
theorem scanNext_suffix : ∀ (acc l : List Char) (p u r : List Char),
    scanNext acc l = some (p, u, r) → r <:+ l := by
  intro acc l
  induction l generalizing acc with
  | nil => intro p u r h; simp [scanNext] at h
  | cons c rest ih =>
    intro p u r h
    unfold scanNext at h
    by_cases hu : urlStart (c :: rest) = true
    · rw [if_pos hu] at h
      simp only [Option.some.injEq, Prod.mk.injEq] at h
      obtain ⟨-, -, hr⟩ := h
      rw [← hr]
      exact List.dropWhile_suffix (fun x => !(isWs x))
    · rw [if_neg hu] at h
      by_cases hc : c = '\n'
      · rw [if_pos hc] at h
        exact (ih [] p u r h).trans (List.suffix_cons c rest)
      · rw [if_neg hc] at h
        exact (ih (c :: acc) p u r h).trans (List.suffix_cons c rest)

/-- On newline-free input a successful scan step decomposes the input (with
the pending accumulator) as captured text, URL, remainder. -/
theorem scanNext_decomp : ∀ (acc l : List Char) (p u r : List Char), '\n' ∉ l →
    scanNext acc l = some (p, u, r) → acc.reverse ++ l = p ++ (u ++ r) := by
  intro acc l
  induction l generalizing acc with
  | nil => intro p u r _ h; simp [scanNext] at h
  | cons c rest ih =>
    intro p u r hnl h
    unfold scanNext at h
    by_cases hu : urlStart (c :: rest) = true
    · rw [if_pos hu] at h
      simp only [Option.some.injEq, Prod.mk.injEq] at h
      obtain ⟨hp, hu2, hr⟩ := h
      rw [← hp, ← hu2, ← hr, List.takeWhile_append_dropWhile]
    · rw [if_neg hu] at h
      by_cases hc : c = '\n'
      · exact absurd (hc ▸ List.mem_cons_self c rest) hnl
      · rw [if_neg hc] at h
        have hnl' : '\n' ∉ rest := fun hm => hnl (List.mem_cons_of_mem c hm)
        have := ih (c :: acc) p u r hnl' h
        rw [List.reverse_cons, List.append_assoc] at this
        simpa using this

/-- The fuelled `findall` is fuel-independent once the fuel exceeds the input
length. -/
theorem findallFuel_congr : ∀ (f1 f2 : Nat) (l : List Char), l.length < f1 → l.length < f2 →
    findallFuel f1 l = findallFuel f2 l := by
  intro f1
  induction f1 with
  | zero => intro f2 l h1 h2; omega
  | succ f ih =>
    intro f2 l h1 h2
    cases f2 with
    | zero => omega
    | succ f2' =>
      unfold findallFuel
      cases hs : scanNext [] l with
      | none => rfl
      | some t =>
        obtain ⟨p, u, r⟩ := t
        have hlen := scanNext_length [] l p u r hs
        exact congrArg _ (ih f2' r (by omega) (by omega))

/-- `findall` on input with no match. -/
theorem findall_none (l : List Char) (h : scanNext [] l = none) : findall l = [] := by
  unfold findall findallFuel
  rw [h]

/-- `findall` unfolds one scan step. -/
theorem findall_some (l p u r : List Char) (h : scanNext [] l = some (p, u, r)) :
    findall l = (p, u) :: findall r := by
  have hlen := scanNext_length [] l p u r h
  show findallFuel (l.length + 1) l = (p, u) :: findallFuel (r.length + 1) r
  unfold findallFuel
  rw [h]
  exact congrArg _ (findallFuel_congr l.length (r.length + 1) r hlen (by omega))

/-- The fuelled remainder is fuel-independent once the fuel exceeds the input
length. -/
theorem findallRestFuel_congr : ∀ (f1 f2 : Nat) (l : List Char), l.length < f1 →
    l.length < f2 → findallRestFuel f1 l = findallRestFuel f2 l := by
  intro f1
  induction f1 with
  | zero => intro f2 l h1 h2; omega
  | succ f ih =>
    intro f2 l h1 h2
    cases f2 with
    | zero => omega
    | succ f2' =>
      unfold findallRestFuel
      cases hs : scanNext [] l with
      | none => rfl
      | some t =>
        obtain ⟨p, u, r⟩ := t
        have hlen := scanNext_length [] l p u r hs
        exact ih f2' r (by omega) (by omega)

/-- `findallRest` on input with no match. -/
theorem findallRest_none (l : List Char) (h : scanNext [] l = none) : findallRest l = l := by
  unfold findallRest findallRestFuel
  rw [h]

/-- `findallRest` unfolds one scan step. -/
theorem findallRest_some (l p u r : List Char) (h : scanNext [] l = some (p, u, r)) :
    findallRest l = findallRest r := by
  have hlen := scanNext_length [] l p u r h
  show findallRestFuel (l.length + 1) l = findallRestFuel (r.length + 1) r
  unfold findallRestFuel
  rw [h]
  exact findallRestFuel_congr l.length (r.length + 1) r hlen (by omega)

/-- A successful `firstOcc` consumes at least the separator. -/
theorem firstOcc_length (sep : List Char) (hs : sep ≠ []) :
    ∀ (l r : List Char), firstOcc sep l = some r → r.length < l.length := by
  intro l
  induction l with
  | nil => intro r h; simp [firstOcc] at h
  | cons c rest ih =>
    intro r h
    unfold firstOcc at h
    by_cases hp : sep.isPrefixOf (c :: rest) = true
    · rw [if_pos hp] at h
      simp only [Option.some.injEq] at h
      have hsl : 1 ≤ sep.length := List.length_pos.mpr hs
      rw [← h, List.length_drop]
      simp only [List.length_cons]
      omega
    · rw [if_neg hp] at h
      exact Nat.lt_succ_of_lt (ih r h)

/-- A successful `firstOcc` exhibits an occurrence of the separator. -/
theorem firstOcc_some_decomp (sep : List Char) :
    ∀ (l r : List Char), firstOcc sep l = some r → ∃ a, l = a ++ sep ++ r := by
  intro l
  induction l with
  | nil => intro r h; simp [firstOcc] at h
  | cons c rest ih =>
    intro r h
    unfold firstOcc at h
    by_cases hp : sep.isPrefixOf (c :: rest) = true
    · rw [if_pos hp] at h
      simp only [Option.some.injEq] at h
      obtain ⟨t, ht⟩ := List.isPrefixOf_iff_prefix.mp hp
      refine ⟨[], ?_⟩
      rw [← ht] at h ⊢
      rw [List.drop_left] at h
      rw [← h]
      simp
    · rw [if_neg hp] at h
      obtain ⟨a, ha⟩ := ih r h
      exact ⟨c :: a, by rw [ha]; simp⟩

/-- Whenever the separator occurs, `firstOcc` succeeds. -/
theorem firstOcc_of_decomp (sep : List Char) (hs : sep ≠ []) :
    ∀ (a b l : List Char), l = a ++ sep ++ b → ∃ r, firstOcc sep l = some r := by
  intro a
  induction a with
  | nil =>
    intro b l hl
    cases hsep : sep with
    | nil => exact absurd hsep hs
    | cons s stail =>
      subst hsep
      simp only [List.nil_append, List.cons_append] at hl
      subst hl
      refine ⟨(s :: (stail ++ b)).drop (s :: stail).length, ?_⟩
      unfold firstOcc
      rw [if_pos (List.isPrefixOf_iff_prefix.mpr ⟨b, by simp⟩)]
  | cons x a' ih =>
    intro b l hl
    subst hl
    rw [show (x :: a') ++ sep ++ b = x :: (a' ++ sep ++ b) from by simp]
    unfold firstOcc
    by_cases hp : sep.isPrefixOf (x :: (a' ++ sep ++ b)) = true
    · rw [if_pos hp]
      exact ⟨_, rfl⟩
    · rw [if_neg hp]
      exact ih b (a' ++ sep ++ b) rfl

/-- The fuelled last-piece computation is fuel-independent once the fuel
exceeds the input length (for a non-empty separator). -/
theorem lastPieceFuel_congr (sep : List Char) (hs : sep ≠ []) :
    ∀ (f1 f2 : Nat) (l : List Char), l.length < f1 → l.length < f2 →
    lastPieceFuel f1 sep l = lastPieceFuel f2 sep l := by
  intro f1
  induction f1 with
  | zero => intro f2 l h1 h2; omega
  | succ f ih =>
    intro f2 l h1 h2
    cases f2 with
    | zero => omega
    | succ f2' =>
      unfold lastPieceFuel
      cases ho : firstOcc sep l with
      | none => rfl
      | some r =>
        have hlen := firstOcc_length sep hs l r ho
        exact ih f2' r (by omega) (by omega)

/-- `lastPiece` on input without the separator. -/
theorem lastPiece_none (sep l : List Char) (h : firstOcc sep l = none) :
    lastPiece sep l = l := by
  unfold lastPiece lastPieceFuel
  rw [h]

/-- `lastPiece` steps over the first occurrence. -/
theorem lastPiece_some (sep : List Char) (hs : sep ≠ []) (l r : List Char)
    (h : firstOcc sep l = some r) : lastPiece sep l = lastPiece sep r := by
  have hlen := firstOcc_length sep hs l r h
  show lastPieceFuel (l.length + 1) sep l = lastPieceFuel (r.length + 1) sep r
  unfold lastPieceFuel
  rw [h]
  exact lastPieceFuel_congr sep hs l.length (r.length + 1) r hlen (by omega)

/-- The head of a `dropWhile` residue falsifies the predicate. -/
theorem dropWhile_head_false (q : Char → Bool) :
    ∀ (l : List Char) (d : Char) (r : List Char), l.dropWhile q = d :: r → q d = false := by
  intro l
  induction l with
  | nil => intro d r h; simp [List.dropWhile] at h
  | cons a t ih =>
    intro d r h
    rw [List.dropWhile_cons] at h
    by_cases hq : q a = true
    · rw [if_pos hq] at h
      exact ih d r h
    · rw [if_neg hq] at h
      injection h with h1 _
      rw [← h1]
      simpa using hq

/-- `takeWhile` passes over a block that satisfies the predicate throughout. -/
theorem takeWhile_append_all (q : Char → Bool) :
    ∀ (l₁ l₂ : List Char), (∀ x ∈ l₁, q x = true) →
    (l₁ ++ l₂).takeWhile q = l₁ ++ l₂.takeWhile q := by
  intro l₁
  induction l₁ with
  | nil => intro l₂ _; simp
  | cons a t ih =>
    intro l₂ hall
    rw [List.cons_append, List.takeWhile_cons, if_pos (hall a (List.mem_cons_self a t))]
    rw [ih l₂ (fun x hx => hall x (List.mem_cons_of_mem a hx))]
    simp

/-- Shape of a scanned match: the URL group is a scheme spelling followed by a
non-whitespace character, consists solely of non-whitespace characters, and
the remainder (when non-empty) starts with whitespace — the match is
maximal. -/
theorem scanNext_url_shape : ∀ (acc l p u r : List Char), scanNext acc l = some (p, u, r) →
    (∃ c t, (u = schemeHttp ++ c :: t ∨ u = schemeHttps ++ c :: t) ∧ isWs c = false) ∧
    (∀ x ∈ u, isWs x = false) ∧
    (∀ d r', r = d :: r' → isWs d = true) := by
  intro acc l
  induction l generalizing acc with
  | nil => intro p u r h; simp [scanNext] at h
  | cons c rest ih =>
    intro p u r h
    unfold scanNext at h
    by_cases hu : urlStart (c :: rest) = true
    · rw [if_pos hu] at h
      simp only [Option.some.injEq, Prod.mk.injEq] at h
      obtain ⟨-, hu2, hr⟩ := h
      refine ⟨?_, ?_, ?_⟩
      · obtain ⟨c', t, hform, hc'⟩ := (urlStart_iff _).mp hu
        have hq : (fun x => !(isWs x)) c' = true := by simp [hc']
        rcases hform with hform | hform
        · refine ⟨c', t.takeWhile (fun x => !(isWs x)), Or.inl ?_, hc'⟩
          rw [← hu2, hform,
            takeWhile_append_all (fun x => !(isWs x)) schemeHttp (c' :: t)
              (fun x hx => by simp [schemeHttp_nonWs x hx]),
            List.takeWhile_cons, if_pos hq]
        · refine ⟨c', t.takeWhile (fun x => !(isWs x)), Or.inr ?_, hc'⟩
          rw [← hu2, hform,
            takeWhile_append_all (fun x => !(isWs x)) schemeHttps (c' :: t)
              (fun x hx => by simp [schemeHttps_nonWs x hx]),
            List.takeWhile_cons, if_pos hq]
      · intro x hx
        rw [← hu2] at hx
        have := List.mem_takeWhile_imp hx
        simpa using this
      · intro d r' hdr
        rw [← hr] at hdr
        have := dropWhile_head_false (fun x => !(isWs x)) (c :: rest) d r' hdr
        simpa using this
    · rw [if_neg hu] at h
      by_cases hc : c = '\n'
      · rw [if_pos hc] at h
        exact ih [] p u r h
      · rw [if_neg hc] at h
        exact ih (c :: acc) p u r h

/-- No URL starts strictly before the position of the match found by
`scanNext`: every suffix of the input longer than the match-plus-remainder
fails `urlStart`. -/
theorem scanNext_no_url_before : ∀ (acc l p u r : List Char),
    scanNext acc l = some (p, u, r) →
    ∀ s, s <:+ l → u.length + r.length < s.length → urlStart s = false := by
  intro acc l
  induction l generalizing acc with
  | nil => intro p u r h; simp [scanNext] at h
  | cons c rest ih =>
    intro p u r h s hsuf hlen
    unfold scanNext at h
    by_cases hu : urlStart (c :: rest) = true
    · rw [if_pos hu] at h
      simp only [Option.some.injEq, Prod.mk.injEq] at h
      obtain ⟨-, hu2, hr⟩ := h
      exfalso
      have hur : u.length + r.length = (c :: rest).length := by
        rw [← hu2, ← hr, ← List.length_append, List.takeWhile_append_dropWhile]
      have hs := hsuf.length_le
      omega
    · rw [if_neg hu] at h
      rcases List.suffix_cons_iff.mp hsuf with heq | hsuf'
      · rw [heq]
        exact Bool.eq_false_iff.mpr hu
      · by_cases hc : c = '\n'
        · rw [if_pos hc] at h
          exact ih [] p u r h s hsuf' hlen
        · rw [if_neg hc] at h
          exact ih (c :: acc) p u r h s hsuf' hlen

/-- When the scan finds no match, no suffix of the input is a URL start. -/
theorem scanNext_none_no_url : ∀ (acc l : List Char), scanNext acc l = none →
    ∀ s, s <:+ l → urlStart s = false := by
  intro acc l
  induction l generalizing acc with
  | nil =>
    intro _ s hsuf
    rw [List.suffix_nil.mp hsuf]
    exact urlStart_nil
  | cons c rest ih =>
    intro h s hsuf
    unfold scanNext at h
    by_cases hu : urlStart (c :: rest) = true
    · rw [if_pos hu] at h
      exact absurd h (by simp)
    · rw [if_neg hu] at h
      rcases List.suffix_cons_iff.mp hsuf with heq | hsuf'
      · rw [heq]
        exact Bool.eq_false_iff.mpr hu
      · by_cases hc : c = '\n'
        · rw [if_pos hc] at h
          exact ih [] h s hsuf'
        · rw [if_neg hc] at h
          exact ih (c :: acc) h s hsuf'

/-- Of two suffixes of the same list, the shorter is a suffix of the longer. -/
theorem suffix_of_suffix_le (s₁ s₂ l : List Char) (h1 : s₁ <:+ l) (h2 : s₂ <:+ l)
    (hle : s₁.length ≤ s₂.length) : s₁ <:+ s₂ :=
  List.reverse_prefix.mp
    (List.prefix_of_prefix_length_le (List.reverse_prefix.mpr h1)
      (List.reverse_prefix.mpr h2) (by simpa using hle))

/-- A whitespace character cannot sit inside the overlap of two
all-non-whitespace blocks: from `x ++ uN = u ++ d :: y` with `x` shorter
than `u`, the character `d` would lie in `u` or in `uN`. -/
theorem no_ws_cross (u uN : List Char) (d : Char) (x y : List Char)
    (heq : x ++ uN = u ++ d :: y) (hlt : x.length < u.length)
    (hd : isWs d = true) (hu : ∀ a ∈ u, isWs a = false)
    (huN : ∀ a ∈ uN, isWs a = false) : False := by
  have hdmem : d ∈ x ++ uN := by rw [heq]; simp
  rcases List.mem_append.mp hdmem with hdx | hdu
  · have hx : x <+: u := by
      have h1 : x <+: x ++ uN := List.prefix_append x uN
      rw [heq] at h1
      exact List.prefix_of_prefix_length_le h1 (List.prefix_append u (d :: y))
        (Nat.le_of_lt hlt)
    have := hu d (hx.subset hdx)
    rw [this] at hd
    simp at hd
  · have := huN d hdu
    rw [this] at hd
    simp at hd

/-- The captured `(.*?)` text contains no URL start: every position inside it
was inspected and rejected by the scan.  The invariant on `acc` says the
same about the pending accumulator, relative to the remaining input. -/
theorem scanNext_pre_no_url : ∀ (acc l p u r : List Char),
    (∀ s, s <:+ acc.reverse → s ≠ [] → urlStart (s ++ l) = false) →
    scanNext acc l = some (p, u, r) →
    ∀ s, s <:+ p → urlStart s = false := by
  intro acc l
  induction l generalizing acc with
  | nil => intro p u r _ h; simp [scanNext] at h
  | cons c rest ih =>
    intro p u r hinv h s hsuf
    unfold scanNext at h
    by_cases hu : urlStart (c :: rest) = true
    · rw [if_pos hu] at h
      simp only [Option.some.injEq, Prod.mk.injEq] at h
      obtain ⟨hp, -, -⟩ := h
      rw [← hp] at hsuf
      by_cases hsnil : s = []
      · rw [hsnil]
        exact urlStart_nil
      · have hctx := hinv s hsuf hsnil
        cases hx : urlStart s with
        | false => rfl
        | true =>
          have hmono := urlStart_append s (c :: rest) hx
          rw [hctx] at hmono
          simp at hmono
    · rw [if_neg hu] at h
      by_cases hc : c = '\n'
      · rw [if_pos hc] at h
        refine ih [] p u r ?_ h s hsuf
        intro s' hs' hs'nil
        rw [List.reverse_nil] at hs'
        exact absurd (List.suffix_nil.mp hs') hs'nil
      · rw [if_neg hc] at h
        refine ih (c :: acc) p u r ?_ h s hsuf
        intro s' hs' hs'nil
        rw [List.reverse_cons] at hs'
        rcases List.eq_nil_or_concat s' with rfl | ⟨s'', a, rfl⟩
        · exact absurd rfl hs'nil
        · obtain ⟨t, ht⟩ := hs'
          rw [List.concat_eq_append] at ht
          rw [List.concat_eq_append]
          rw [← List.append_assoc] at ht
          obtain ⟨hts, ha⟩ := List.append_inj' ht rfl
          have hac : a = c := by injection ha
          subst hac
          rw [List.append_assoc]
          simp only [List.singleton_append]
          by_cases hs''nil : s'' = []
          · subst hs''nil
            simp only [List.nil_append]
            exact Bool.eq_false_iff.mpr hu
          · exact hinv s'' ⟨t, hts⟩ hs''nil

/-- No suffix of a `(.*?)` capture in the `findall` output is a URL start. -/
theorem findall_pre_no_url : ∀ (n : Nat) (l : List Char), l.length ≤ n →
    ∀ pu ∈ findall l, ∀ s, s <:+ pu.1 → urlStart s = false := by
  intro n
  induction n with
  | zero =>
    intro l hl pu hpu
    have hnil : l = [] := List.length_eq_zero.mp (Nat.le_zero.mp hl)
    subst hnil
    rw [findall_none [] rfl] at hpu
    exact absurd hpu (List.not_mem_nil pu)
  | succ n ih =>
    intro l hl pu hpu s hsuf
    cases hs : scanNext [] l with
    | none =>
      rw [findall_none l hs] at hpu
      exact absurd hpu (List.not_mem_nil pu)
    | some t =>
      obtain ⟨p, u, r⟩ := t
      rw [findall_some l p u r hs] at hpu
      rcases List.mem_cons.mp hpu with hpu | hpu
      · subst hpu
        refine scanNext_pre_no_url [] l p u r ?_ hs s hsuf
        intro s' hs' hn
        rw [List.reverse_nil] at hs'
        exact absurd (List.suffix_nil.mp hs') hn
      · have hlen := scanNext_length [] l p u r hs
        exact ih r (by omega) pu hpu s hsuf

/-- Every URL group produced by `findall` is a scheme spelling followed by a
non-whitespace character and consists solely of non-whitespace
characters. -/
theorem findall_url_shape : ∀ (n : Nat) (l : List Char), l.length ≤ n →
    ∀ pu ∈ findall l,
      (∃ c t, (pu.2 = schemeHttp ++ c :: t ∨ pu.2 = schemeHttps ++ c :: t) ∧ isWs c = false) ∧
      (∀ x ∈ pu.2, isWs x = false) := by
  intro n
  induction n with
  | zero =>
    intro l hl pu hpu
    have hnil : l = [] := List.length_eq_zero.mp (Nat.le_zero.mp hl)
    subst hnil
    rw [findall_none [] rfl] at hpu
    exact absurd hpu (List.not_mem_nil pu)
  | succ n ih =>
    intro l hl pu hpu
    cases hs : scanNext [] l with
    | none =>
      rw [findall_none l hs] at hpu
      exact absurd hpu (List.not_mem_nil pu)
    | some t =>
      obtain ⟨p, u, r⟩ := t
      rw [findall_some l p u r hs] at hpu
      rcases List.mem_cons.mp hpu with hpu | hpu
      · subst hpu
        obtain ⟨hshape, hnonws, -⟩ := scanNext_url_shape [] l p u r hs
        exact ⟨hshape, hnonws⟩
      · have hlen := scanNext_length [] l p u r hs
        exact ih r (by omega) pu hpu

/-- A URL group in scheme shape is non-empty. -/
theorem url_shape_ne_nil (u : List Char)
    (h : ∃ c t, (u = schemeHttp ++ c :: t ∨ u = schemeHttps ++ c :: t) ∧ isWs c = false) :
    u ≠ [] := by
  obtain ⟨c, t, hform, -⟩ := h
  rcases hform with hform | hform <;> · rw [hform]; simp [schemeHttp, schemeHttps]

/-- A URL group in scheme shape starts a URL wherever it occurs. -/
theorem url_shape_urlStart (u b : List Char)
    (h : ∃ c t, (u = schemeHttp ++ c :: t ∨ u = schemeHttps ++ c :: t) ∧ isWs c = false) :
    urlStart (u ++ b) = true := by
  obtain ⟨c, t, hform, hc⟩ := h
  apply (urlStart_iff (u ++ b)).mpr
  rcases hform with hform | hform
  · exact ⟨c, t ++ b, Or.inl (by rw [hform]; simp), hc⟩
  · exact ⟨c, t ++ b, Or.inr (by rw [hform]; simp), hc⟩

/-- The concatenation of the groups of each match, in order. -/
def joinPairs (ps : List (List Char × List Char)) : List Char :=
  (ps.map (fun pu => pu.1 ++ pu.2)).flatten

/-- On newline-free input, `findall` together with `findallRest` decompose the
input: the matches concatenated in order, followed by the remainder. -/
theorem findall_decomp : ∀ (n : Nat) (l : List Char), l.length ≤ n → '\n' ∉ l →
    l = joinPairs (findall l) ++ findallRest l := by
  intro n
  induction n with
  | zero =>
    intro l hl _
    have hnil : l = [] := List.length_eq_zero.mp (Nat.le_zero.mp hl)
    subst hnil
    rw [findall_none [] rfl, findallRest_none [] rfl]
    rfl
  | succ n ih =>
    intro l hl hnl
    cases hs : scanNext [] l with
    | none =>
      rw [findall_none l hs, findallRest_none l hs]
      rfl
    | some t =>
      obtain ⟨p, u, r⟩ := t
      rw [findall_some l p u r hs, findallRest_some l p u r hs]
      have hlen := scanNext_length [] l p u r hs
      have hnl' : '\n' ∉ r := fun hm => hnl ((scanNext_suffix [] l p u r hs).subset hm)
      have hdec := scanNext_decomp [] l p u r hnl hs
      simp only [List.reverse_nil, List.nil_append] at hdec
      have hr := ih r (by omega) hnl'
      unfold joinPairs
      simp only [List.map_cons, List.flatten_cons]
      unfold joinPairs at hr
      rw [hdec, List.append_assoc, ← hr]
      simp

/-- `getLastD` ignores the default on a non-empty list. -/
theorem getLastD_ne_nil (l : List (List Char × List Char))
    (d1 d2 : List Char × List Char) (h : l ≠ []) : l.getLastD d1 = l.getLastD d2 := by
  cases l with
  | nil => exact absurd rfl h
  | cons a t => rw [List.getLastD_cons, List.getLastD_cons]

/-- The `getLastD` of a non-empty list is one of its elements. -/
theorem getLastD_mem : ∀ (l : List (List Char × List Char)) (d : List Char × List Char),
    l ≠ [] → l.getLastD d ∈ l := by
  intro l
  induction l with
  | nil => intro d h; exact absurd rfl h
  | cons a t ih =>
    intro d _
    rw [List.getLastD_cons]
    by_cases htt : t = []
    · subst htt
      simp [List.getLastD]
    · exact List.mem_cons_of_mem a (ih a htt)

/-- The URL group of the final `findall` match (`parts[-1]` after the loop,
since every URL group is non-empty). -/
def lastUrl (l : List Char) : List Char :=
  ((findall l).getLastD ([], [])).2

/-- `lastUrl` when the first match is the only one. -/
theorem lastUrl_single (l p u r : List Char) (h1 : scanNext [] l = some (p, u, r))
    (h2 : findall r = []) : lastUrl l = u := by
  unfold lastUrl
  rw [findall_some l p u r h1, h2]
  rfl

/-- `lastUrl` skips over a first match that is not the last. -/
theorem lastUrl_step (l p u r : List Char) (h1 : scanNext [] l = some (p, u, r))
    (h2 : findall r ≠ []) : lastUrl l = lastUrl r := by
  unfold lastUrl
  rw [findall_some l p u r h1]
  cases hf : findall r with
  | nil => exact absurd hf h2
  | cons q qs =>
    rw [List.getLastD_cons]
    exact congrArg Prod.snd (getLastD_ne_nil (q :: qs) (p, u) ([], []) (by simp))

/-- Position of the last URL on newline-free input: the input decomposes as
text, last URL, remainder, and every occurrence of the last URL either ends
exactly where the remainder starts or is followed by the last URL and the
remainder as a suffix.  This is what makes `message.split(parts[-1])[-1]`
return exactly the text after the final match. -/
theorem findall_occ : ∀ (n : Nat) (l : List Char), l.length ≤ n → '\n' ∉ l →
    findall l ≠ [] →
    (∃ a, l = a ++ lastUrl l ++ findallRest l) ∧
    (∀ a b, l = a ++ lastUrl l ++ b →
      b = findallRest l ∨ lastUrl l ++ findallRest l <:+ b) := by
  intro n
  induction n with
  | zero =>
    intro l hl _ hne
    have hnil : l = [] := List.length_eq_zero.mp (Nat.le_zero.mp hl)
    subst hnil
    exact absurd (findall_none [] rfl) hne
  | succ n ih =>
    intro l hl hnl hne
    cases hs : scanNext [] l with
    | none => exact absurd (findall_none l hs) hne
    | some t₀ =>
      obtain ⟨p₁, u₁, r₁⟩ := t₀
      have hlen₁ := scanNext_length [] l p₁ u₁ r₁ hs
      have hsuf₁ := scanNext_suffix [] l p₁ u₁ r₁ hs
      have hnl₁ : '\n' ∉ r₁ := fun hm => hnl (hsuf₁.subset hm)
      have hdec : l = p₁ ++ (u₁ ++ r₁) := by
        have := scanNext_decomp [] l p₁ u₁ r₁ hnl hs
        simpa using this
      obtain ⟨hshape₁, hnonws₁, hhead₁⟩ := scanNext_url_shape [] l p₁ u₁ r₁ hs
      have hS1 := scanNext_no_url_before [] l p₁ u₁ r₁ hs
      by_cases hfr : findall r₁ = []
      · -- the first match is the last one
        have hscanr : scanNext [] r₁ = none := by
          cases hs2 : scanNext [] r₁ with
          | none => rfl
          | some t₁ =>
            obtain ⟨p, u, r⟩ := t₁
            rw [findall_some r₁ p u r hs2] at hfr
            simp at hfr
        have hLu : lastUrl l = u₁ := lastUrl_single l p₁ u₁ r₁ hs hfr
        have hR : findallRest l = r₁ := by
          rw [findallRest_some l p₁ u₁ r₁ hs, findallRest_none r₁ hscanr]
        rw [hLu, hR]
        constructor
        · exact ⟨p₁, by rw [hdec, List.append_assoc]⟩
        · intro a b heq
          have hub_suf : u₁ ++ b <:+ l := ⟨a, by rw [heq, List.append_assoc]⟩
          have hb_suf : b <:+ l := ⟨a ++ u₁, heq.symm⟩
          have hr_suf : r₁ <:+ l := ⟨p₁ ++ u₁, by rw [hdec, List.append_assoc]⟩
          have hurl : urlStart (u₁ ++ b) = true := url_shape_urlStart u₁ b hshape₁
          have hlen_ub : u₁.length + b.length ≤ u₁.length + r₁.length := by
            by_contra hcon
            push_neg at hcon
            have hgt : u₁.length + r₁.length < (u₁ ++ b).length := by
              rw [List.length_append]
              omega
            rw [hS1 (u₁ ++ b) hub_suf hgt] at hurl
            simp at hurl
          have hble : b.length ≤ r₁.length := by omega
          have hbr : b <:+ r₁ := suffix_of_suffix_le b r₁ l hb_suf hr_suf hble
          by_cases hbeq : b.length = r₁.length
          · exact Or.inl (List.IsSuffix.eq_of_length hbr hbeq)
          · exfalso
            have hblt : b.length < r₁.length := lt_of_le_of_ne hble hbeq
            obtain ⟨d, r₁', hr₁⟩ : ∃ d t, r₁ = d :: t := by
              cases r₁ with
              | nil => simp at hblt
              | cons d t => exact ⟨d, t, rfl⟩
            have hd : isWs d = true := hhead₁ d r₁' hr₁
            have hur_suf : u₁ ++ r₁ <:+ l := ⟨p₁, hdec.symm⟩
            have hub_ur : u₁ ++ b <:+ u₁ ++ r₁ :=
              suffix_of_suffix_le _ _ l hub_suf hur_suf
                (by simp only [List.length_append]; omega)
            by_cases hc2 : u₁.length + b.length ≤ r₁.length
            · have hin : u₁ ++ b <:+ r₁ :=
                suffix_of_suffix_le _ _ l hub_suf hr_suf
                  (by rw [List.length_append]; omega)
              have hno := scanNext_none_no_url [] r₁ hscanr (u₁ ++ b) hin
              rw [hno] at hurl
              simp at hurl
            · push_neg at hc2
              obtain ⟨x, hx⟩ := hub_ur
              have hbr' : b <:+ r₁' := by
                rcases List.suffix_cons_iff.mp (hr₁ ▸ hbr) with hbe | hbs
                · exfalso
                  rw [hbe, hr₁] at hblt
                  simp at hblt
                · exact hbs
              obtain ⟨y, hy⟩ := hbr'
              rw [hr₁, ← hy] at hx
              have hx' : (x ++ u₁) ++ b = (u₁ ++ (d :: y)) ++ b := by
                rw [List.append_assoc, hx]
                simp
              have hxu : x ++ u₁ = u₁ ++ d :: y := List.append_cancel_right hx'
              have hxlen : x.length < u₁.length := by
                have hlenu := congrArg List.length hxu
                have hleny := congrArg List.length hy
                simp only [List.length_append, List.length_cons] at hlenu hleny
                have hlenr : r₁.length = r₁'.length + 1 := by rw [hr₁]; simp
                omega
              exact no_ws_cross u₁ u₁ d x y hxu hxlen hd hnonws₁ hnonws₁
      · -- more matches follow: use the induction hypothesis on the remainder
        have hLu : lastUrl l = lastUrl r₁ := lastUrl_step l p₁ u₁ r₁ hs hfr
        have hR : findallRest l = findallRest r₁ := findallRest_some l p₁ u₁ r₁ hs
        obtain ⟨IH1, IH2⟩ := ih r₁ (by omega) hnl₁ hfr
        have hmem : ((findall r₁).getLastD ([], [])) ∈ findall r₁ :=
          getLastD_mem (findall r₁) ([], []) hfr
        have hshapeN := findall_url_shape r₁.length r₁ le_rfl _ hmem
        have huN_shape : ∃ c t, (lastUrl r₁ = schemeHttp ++ c :: t ∨
            lastUrl r₁ = schemeHttps ++ c :: t) ∧ isWs c = false := hshapeN.1
        have huN_nonws : ∀ x ∈ lastUrl r₁, isWs x = false := hshapeN.2
        rw [hLu, hR]
        set uN := lastUrl r₁ with huN_def
        set R := findallRest r₁ with hR_def
        constructor
        · obtain ⟨a', ha'⟩ := IH1
          refine ⟨p₁ ++ u₁ ++ a', ?_⟩
          rw [hdec, ha']
          simp [List.append_assoc]
        · intro a b heq
          have hurl : urlStart (uN ++ b) = true := url_shape_urlStart _ b huN_shape
          have hub_suf : uN ++ b <:+ l := ⟨a, by rw [heq, List.append_assoc]⟩
          have hb_suf : b <:+ l := ⟨a ++ uN, heq.symm⟩
          have hr_suf : r₁ <:+ l := ⟨p₁ ++ u₁, by rw [hdec, List.append_assoc]⟩
          have hS1' : uN.length + b.length ≤ u₁.length + r₁.length := by
            by_contra hcon
            push_neg at hcon
            have hgt : u₁.length + r₁.length < (uN ++ b).length := by
              rw [List.length_append]
              omega
            rw [hS1 _ hub_suf hgt] at hurl
            simp at hurl
          by_cases hcase : uN.length + b.length ≤ r₁.length
          · have hsub : uN ++ b <:+ r₁ :=
              suffix_of_suffix_le _ _ l hub_suf hr_suf
                (by rw [List.length_append]; omega)
            obtain ⟨a'', ha''⟩ := hsub
            exact IH2 a'' b (by rw [← ha'', List.append_assoc])
          · push_neg at hcase
            have hr₁ne : r₁ ≠ [] := by
              intro hnil
              rw [hnil, findall_none [] rfl] at hfr
              exact hfr rfl
            obtain ⟨d, r₁', hr₁⟩ : ∃ d t, r₁ = d :: t := by
              cases r₁ with
              | nil => exact absurd rfl hr₁ne
              | cons d t => exact ⟨d, t, rfl⟩
            have hd : isWs d = true := hhead₁ d r₁' hr₁
            by_cases hble : r₁.length ≤ b.length
            · right
              have hrb : r₁ <:+ b := suffix_of_suffix_le _ _ l hr_suf hb_suf hble
              obtain ⟨a', ha'⟩ := IH1
              have hin : uN ++ R <:+ r₁ := ⟨a', by rw [ha']; simp [List.append_assoc]⟩
              exact hin.trans hrb
            · push_neg at hble
              exfalso
              have hur_suf : u₁ ++ r₁ <:+ l := ⟨p₁, hdec.symm⟩
              have hub_ur : uN ++ b <:+ u₁ ++ r₁ :=
                suffix_of_suffix_le _ _ l hub_suf hur_suf
                  (by simp only [List.length_append]; omega)
              obtain ⟨x, hx⟩ := hub_ur
              have hbr : b <:+ r₁ :=
                suffix_of_suffix_le _ _ l hb_suf hr_suf (Nat.le_of_lt hble)
              have hbr' : b <:+ r₁' := by
                rcases List.suffix_cons_iff.mp (hr₁ ▸ hbr) with hbe | hbs
                · exfalso
                  rw [hbe, hr₁] at hble
                  simp at hble
                · exact hbs
              obtain ⟨y, hy⟩ := hbr'
              rw [hr₁, ← hy] at hx
              have hx' : (x ++ uN) ++ b = (u₁ ++ (d :: y)) ++ b := by
                rw [List.append_assoc, hx]
                simp
              have hxu : x ++ uN = u₁ ++ d :: y := List.append_cancel_right hx'
              have hxlen : x.length < u₁.length := by
                have hlenu := congrArg List.length hxu
                have hleny := congrArg List.length hy
                simp only [List.length_append, List.length_cons] at hlenu hleny
                have hlenr : r₁.length = r₁'.length + 1 := by rw [hr₁]; simp
                omega
              exact no_ws_cross u₁ uN d x y hxu hxlen hd hnonws₁ huN_nonws

/-- Python's `split` semantics for the last piece: when every occurrence of the
separator in the current text either ends exactly at the start of `R` or is
followed by `sep ++ R`, the left-to-right non-overlapping scan ends with the
occurrence adjacent to `R`, so the final piece is exactly `R`. -/
theorem lastPiece_eq (sep R : List Char) (hsep : sep ≠ []) :
    ∀ (n : Nat) (cur : List Char), cur.length ≤ n →
    (∃ a, cur = a ++ sep ++ R) →
    (∀ a b, cur = a ++ sep ++ b → b = R ∨ sep ++ R <:+ b) →
    lastPiece sep cur = R := by
  intro n
  induction n with
  | zero =>
    intro cur hl hex _
    exfalso
    obtain ⟨a, ha⟩ := hex
    have := congrArg List.length ha
    simp only [List.length_append] at this
    have hsl : 1 ≤ sep.length := List.length_pos.mpr hsep
    omega
  | succ n ih =>
    intro cur hl hex hocc
    obtain ⟨a, ha⟩ := hex
    obtain ⟨rest, hrest⟩ := firstOcc_of_decomp sep hsep a R cur ha
    obtain ⟨a₀, ha₀⟩ := firstOcc_some_decomp sep cur rest hrest
    rcases hocc a₀ rest ha₀ with hR | hsfx
    · subst hR
      rw [lastPiece_some sep hsep cur rest hrest]
      apply lastPiece_none
      cases ho2 : firstOcc sep rest with
      | none => rfl
      | some r2 =>
        exfalso
        obtain ⟨a2, ha2⟩ := firstOcc_some_decomp sep rest r2 ho2
        have hcur2 : cur = (a₀ ++ sep ++ a2) ++ sep ++ r2 := by
          rw [ha₀, ha2]
          simp [List.append_assoc]
        have hsl : 1 ≤ sep.length := List.length_pos.mpr hsep
        have hlen2 := congrArg List.length ha2
        simp only [List.length_append] at hlen2
        rcases hocc _ _ hcur2 with h1 | h1
        · have : r2.length = rest.length := by rw [h1]
          omega
        · have hll := h1.length_le
          rw [List.length_append] at hll
          omega
    · obtain ⟨z, hz⟩ := hsfx
      have hlen := firstOcc_length sep hsep cur rest hrest
      rw [lastPiece_some sep hsep cur rest hrest]
      apply ih rest (by omega)
      · exact ⟨z, by rw [← hz]; simp [List.append_assoc]⟩
      · intro a2 b2 hab
        refine hocc (a₀ ++ sep ++ a2) b2 ?_
        rw [ha₀, hab]
        simp [List.append_assoc]

/-- On newline-free input with at least one match,
`message.split(parts[-1])[-1]` is exactly the text after the final URL. -/
theorem lastPiece_findallRest (m : List Char) (hnl : '\n' ∉ m) (hne : findall m ≠ []) :
    lastPiece (lastUrl m) m = findallRest m := by
  obtain ⟨hex, hocc⟩ := findall_occ m.length m le_rfl hnl hne
  have hmem := getLastD_mem (findall m) ([], []) hne
  have hshape := findall_url_shape m.length m le_rfl _ hmem
  have hlu_ne : lastUrl m ≠ [] := url_shape_ne_nil (lastUrl m) hshape.1
  exact lastPiece_eq (lastUrl m) (findallRest m) hlu_ne m.length m le_rfl hex hocc

/-- The two (possibly empty) segments contributed by one match in the loop of
lines 105–110. -/
def segsOf (pu : List Char × List Char) : List (List Char) :=
  (if pu.1 = [] then [] else [pu.1]) ++ (if pu.2 = [] then [] else [pu.2])

/-- The `foldl` accumulation of `buildParts` in closed form. -/
theorem buildParts_foldl : ∀ (ms : List (List Char × List Char)) (init : List (List Char)),
    ms.foldl
      (fun parts pm =>
        (parts ++ (if pm.1 = [] then [] else [pm.1])) ++ (if pm.2 = [] then [] else [pm.2]))
      init = init ++ ms.flatMap segsOf := by
  intro ms
  induction ms with
  | nil => intro init; simp
  | cons pm ms ih =>
    intro init
    rw [List.foldl_cons, ih, List.flatMap_cons]
    unfold segsOf
    simp [List.append_assoc]

/-- `buildParts` in closed form. -/
theorem buildParts_eq (ms : List (List Char × List Char)) :
    buildParts ms = ms.flatMap segsOf := by
  unfold buildParts
  rw [buildParts_foldl ms []]
  simp

/-- Dropping the empty-string segments does not change the concatenation. -/
theorem segsOf_flatten (pu : List Char × List Char) :
    (segsOf pu).flatten = pu.1 ++ pu.2 := by
  unfold segsOf
  by_cases h1 : pu.1 = [] <;> by_cases h2 : pu.2 = [] <;> simp [h1, h2]

/-- Concatenating the built parts recovers the concatenation of all groups. -/
theorem buildParts_flatten (ms : List (List Char × List Char)) :
    (buildParts ms).flatten = joinPairs ms := by
  rw [buildParts_eq]
  induction ms with
  | nil => rfl
  | cons pm ms ih =>
    rw [List.flatMap_cons, List.flatten_append, ih, segsOf_flatten]
    unfold joinPairs
    simp

/-- With non-empty URL groups, the last of the built parts (`parts[-1]`) is the
URL group of the last match. -/
theorem flatMap_segsOf_getLast : ∀ (ms : List (List Char × List Char)), ms ≠ [] →
    (∀ pu ∈ ms, pu.2 ≠ []) →
    (ms.flatMap segsOf).getLast? = some ((ms.getLastD ([], [])).2) := by
  intro ms
  induction ms with
  | nil => intro h; exact absurd rfl h
  | cons pm ms ih =>
    intro _ hurl
    by_cases hm : ms = []
    · subst hm
      have hpm : pm.2 ≠ [] := hurl pm (List.mem_cons_self pm [])
      rw [List.flatMap_cons]
      simp only [List.flatMap_nil, List.append_nil]
      unfold segsOf
      rw [if_neg hpm, List.getLastD_cons]
      rw [show (if pm.1 = [] then ([] : List (List Char)) else [pm.1]) ++ [pm.2]
          = ((if pm.1 = [] then ([] : List (List Char)) else [pm.1])) ++ [pm.2] from rfl]
      rw [List.getLast?_concat]
      simp [List.getLastD]
    · have ihh := ih hm (fun pu hpu => hurl pu (List.mem_cons_of_mem pm hpu))
      have hms_ne : ms.flatMap segsOf ≠ [] := by
        intro h0
        rw [h0] at ihh
        simp at ihh
      rw [List.flatMap_cons, List.getLast?_append_of_ne_nil _ hms_ne, ihh,
        List.getLastD_cons, getLastD_ne_nil ms pm ([], []) hm]

/-- `parts[-1]` of `buildParts (findall m)` is the last URL. -/
theorem buildParts_getLast (m : List Char) (hne : findall m ≠ []) :
    (buildParts (findall m)).getLast? = some (lastUrl m) := by
  rw [buildParts_eq]
  exact flatMap_segsOf_getLast (findall m) hne
    (fun pu hpu => url_shape_ne_nil pu.2 (findall_url_shape m.length m le_rfl pu hpu).1)

/-- `split_message_by_link` on input with no URL match returns the message as
the single segment. -/
theorem split_eq_no_match (m : List Char) (h : findall m = []) :
    split_message_by_link m = some [m] := by
  unfold split_message_by_link
  rw [if_pos h]

/-- `split_message_by_link` on input with at least one match: the built parts,
plus the final `str.split` piece when it is non-empty. -/
theorem split_eq_match (m : List Char) (h : findall m ≠ []) :
    split_message_by_link m =
      if lastPiece (lastUrl m) m = [] then some (buildParts (findall m))
      else some (buildParts (findall m) ++ [lastPiece (lastUrl m) m]) := by
  have hlast := buildParts_getLast m h
  have hlu_ne : lastUrl m ≠ [] :=
    url_shape_ne_nil (lastUrl m)
      (findall_url_shape m.length m le_rfl _ (getLastD_mem (findall m) ([], []) h)).1
  unfold split_message_by_link
  rw [if_neg h, hlast]
  show (if lastUrl m = [] then none
    else if lastPiece (lastUrl m) m = [] then some (buildParts (findall m))
    else some (buildParts (findall m) ++ [lastPiece (lastUrl m) m])) = _
  rw [if_neg hlu_ne]

/-- No suffix of the text after the last match is a URL start. -/
theorem findallRest_no_url : ∀ (n : Nat) (l : List Char), l.length ≤ n →
    ∀ s, s <:+ findallRest l → urlStart s = false := by
  intro n
  induction n with
  | zero =>
    intro l hl s hs
    have hnil : l = [] := List.length_eq_zero.mp (Nat.le_zero.mp hl)
    subst hnil
    rw [findallRest_none [] rfl] at hs
    rw [List.suffix_nil.mp hs]
    exact urlStart_nil
  | succ n ih =>
    intro l hl s hs
    cases h : scanNext [] l with
    | none =>
      rw [findallRest_none l h] at hs
      exact scanNext_none_no_url [] l h s hs
    | some t₀ =>
      obtain ⟨p, u, r⟩ := t₀
      rw [findallRest_some l p u r h] at hs
      have := scanNext_length [] l p u r h
      exact ih r (by omega) s hs

/-- The head of a list is whitespace, or the list is empty. -/
def headWsOrNil : List Char → Prop
  | [] => True
  | c :: _ => isWs c = true

/-- Each URL group is a maximal match: the text that follows it (the next
captured text and everything after, or the final remainder) is empty or
starts with whitespace. -/
def MaxChain : List (List Char × List Char) → List Char → Prop
  | [], _ => True
  | _ :: rest, t => headWsOrNil (joinPairs rest ++ t) ∧ MaxChain rest t

/-- On newline-free input the `findall` matches satisfy `MaxChain`. -/
theorem findall_maxchain : ∀ (n : Nat) (l : List Char), l.length ≤ n → '\n' ∉ l →
    MaxChain (findall l) (findallRest l) := by
  intro n
  induction n with
  | zero =>
    intro l hl _
    have hnil : l = [] := List.length_eq_zero.mp (Nat.le_zero.mp hl)
    subst hnil
    rw [findall_none [] rfl]
    trivial
  | succ n ih =>
    intro l hl hnl
    cases h : scanNext [] l with
    | none =>
      rw [findall_none l h]
      trivial
    | some t₀ =>
      obtain ⟨p, u, r⟩ := t₀
      rw [findall_some l p u r h, findallRest_some l p u r h]
      have hlen := scanNext_length [] l p u r h
      have hnl' : '\n' ∉ r := fun hm => hnl ((scanNext_suffix [] l p u r h).subset hm)
      refine ⟨?_, ih r (by omega) hnl'⟩
      have hd := findall_decomp r.length r le_rfl hnl'
      rw [← hd]
      cases hr : r with
      | nil => trivial
      | cons d r' => exact (scanNext_url_shape [] l p u r h).2.2 d r' hr

/-- Claim C10: `split_message_by_link` is total and its `parts[-1]` access is
safe — on every input it returns (without an `IndexError` or `ValueError`
path) a non-empty list of segments, because every match contributes a
non-empty URL segment. -/
theorem split_total_nonempty (m : List Char) :
    ∃ segs, split_message_by_link m = some segs ∧ segs ≠ [] := by
  by_cases h : findall m = []
  · exact ⟨[m], split_eq_no_match m h, by simp⟩
  · have hlast := buildParts_getLast m h
    have hp_ne : buildParts (findall m) ≠ [] := by
      intro h0
      rw [h0] at hlast
      simp at hlast
    rw [split_eq_match m h]
    by_cases ht : lastPiece (lastUrl m) m = []
    · rw [if_pos ht]
      exact ⟨_, rfl, hp_ne⟩
    · rw [if_neg ht]
      exact ⟨_, rfl, by simp⟩

/-- A message whose only URL is preceded by a newline: the lazy group `(.*?)`
cannot cross the newline, so the text before the URL is dropped. -/
def cexNewlineC2 : List Char := ['a', '\n', 'h', 't', 't', 'p', 's', ':', '/', '/', 'x']

/-- Counterexample to claim C2 as stated: on `"a\nhttps://x"` the segments
returned by `split_message_by_link` concatenate to `"https://x"`, not to the
original message — the text before the newline is lost. -/
theorem split_join_newline_cex :
    split_message_by_link cexNewlineC2
      = some [['h', 't', 't', 'p', 's', ':', '/', '/', 'x']] ∧
    ([['h', 't', 't', 'p', 's', ':', '/', '/', 'x']] : List (List Char)).flatten
      ≠ cexNewlineC2 := by
  decide

/-- Claim C2, amended: for every message that contains no newline character,
concatenating the segments returned by `split_message_by_link` reproduces
the message exactly; and for every message with no URL match (newline or
not) the result is the single-element list holding the message unchanged. -/
theorem split_join_eq_of_no_newline (m m' : List Char) (hnl : '\n' ∉ m)
    (hnourl : findall m' = []) :
    (∃ segs, split_message_by_link m = some segs ∧ segs.flatten = m) ∧
    split_message_by_link m' = some [m'] := by
  constructor
  · by_cases h : findall m = []
    · exact ⟨[m], split_eq_no_match m h, by simp⟩
    · rw [split_eq_match m h]
      by_cases ht : lastPiece (lastUrl m) m = []
      · rw [if_pos ht]
        refine ⟨_, rfl, ?_⟩
        rw [buildParts_flatten]
        have hd := findall_decomp m.length m le_rfl hnl
        have hR : findallRest m = [] := by
          rw [← lastPiece_findallRest m hnl h]
          exact ht
        rw [hR] at hd
        simpa using hd.symm
      · rw [if_neg ht]
        refine ⟨_, rfl, ?_⟩
        rw [List.flatten_append, buildParts_flatten, lastPiece_findallRest m hnl h]
        simp only [List.flatten_cons, List.flatten_nil, List.append_nil]
        exact (findall_decomp m.length m le_rfl hnl).symm
  · exact split_eq_no_match m' hnourl

/-- A message with one URL and no newline, for instantiating the round-trip. -/
def sampleUrlMsg : List Char := ['x', ' ', 'h', 't', 't', 'p', ':', '/', '/', 'a']

/-- A message with no URL. -/
def sampleNoUrlMsg : List Char := ['h', 'i']

/-- Witness for `split_join_eq_of_no_newline` on `"x http://a"` and `"hi"`. -/
theorem split_join_eq_of_no_newline_witness :
    (∃ segs, split_message_by_link sampleUrlMsg = some segs ∧
      segs.flatten = sampleUrlMsg) ∧
    split_message_by_link sampleNoUrlMsg = some [sampleNoUrlMsg] :=
  split_join_eq_of_no_newline sampleUrlMsg sampleNoUrlMsg (by decide) (by decide)

/-- A message whose only URL is preceded by a newline (variant for the
segment-structure claim). -/
def cexNewlineC6 : List Char := ['b', '\n', 'h', 't', 't', 'p', ':', '/', '/', 'y']

/-- Counterexample to claim C6 as stated: on `"b\nhttp://y"` the non-URL span
`"b\n"` is not emitted at all — the segments are just the URL, and they do
not concatenate back to the message. -/
theorem split_segments_newline_cex :
    split_message_by_link cexNewlineC6 = some [['h', 't', 't', 'p', ':', '/', '/', 'y']] ∧
    (∀ s ∈ ([['h', 't', 't', 'p', ':', '/', '/', 'y']] : List (List Char)), s ≠ ['b', '\n']) ∧
    ([['h', 't', 't', 'p', ':', '/', '/', 'y']] : List (List Char)).flatten ≠ cexNewlineC6 := by
  decide

/-- Claim C6, amended: on newline-free input with at least one URL match,
`split_message_by_link` returns exactly the non-empty `(.*?)` spans and the
URL spans of the regex matches interleaved in original left-to-right order,
with the text after the last URL appended as a final segment when it is
non-empty.  The matches decompose the message in order; each URL segment is
a scheme followed by non-whitespace characters and is maximal (the text
after it is empty or starts with whitespace); and no URL starts inside a
non-URL span or inside the trailing text. -/
theorem split_segments_ordered_of_no_newline (m : List Char) (hnl : '\n' ∉ m)
    (hne : findall m ≠ []) :
    ∃ segs, split_message_by_link m = some segs ∧
      segs = (findall m).flatMap segsOf ++
        (if findallRest m = [] then [] else [findallRest m]) ∧
      m = joinPairs (findall m) ++ findallRest m ∧
      (∀ pu ∈ findall m,
        (∃ c t, (pu.2 = schemeHttp ++ c :: t ∨ pu.2 = schemeHttps ++ c :: t) ∧
          isWs c = false) ∧ (∀ x ∈ pu.2, isWs x = false)) ∧
      MaxChain (findall m) (findallRest m) ∧
      (∀ pu ∈ findall m, ∀ s, s <:+ pu.1 → urlStart s = false) ∧
      (∀ s, s <:+ findallRest m → urlStart s = false) := by
  refine ⟨(findall m).flatMap segsOf ++
      (if findallRest m = [] then [] else [findallRest m]), ?_, rfl,
    findall_decomp m.length m le_rfl hnl,
    (fun pu hpu => findall_url_shape m.length m le_rfl pu hpu),
    findall_maxchain m.length m le_rfl hnl,
    (fun pu hpu => findall_pre_no_url m.length m le_rfl pu hpu),
    (fun s hs => findallRest_no_url m.length m le_rfl s hs)⟩
  rw [split_eq_match m hne, lastPiece_findallRest m hnl hne, buildParts_eq]
  by_cases hR : findallRest m = []
  · rw [if_pos hR, if_pos hR]
    simp
  · rw [if_neg hR, if_neg hR]

/-- A message with a URL and trailing text, for instantiating the
segment-structure theorem. -/
def sampleUrlTrailMsg : List Char :=
  ['y', ' ', 'h', 't', 't', 'p', 's', ':', '/', '/', 'b', ' ', 'z']

/-- Witness for `split_segments_ordered_of_no_newline` on `"y https://b z"`. -/
theorem split_segments_ordered_of_no_newline_witness :
    ∃ segs, split_message_by_link sampleUrlTrailMsg = some segs ∧
      segs = (findall sampleUrlTrailMsg).flatMap segsOf ++
        (if findallRest sampleUrlTrailMsg = [] then []
         else [findallRest sampleUrlTrailMsg]) ∧
      sampleUrlTrailMsg
        = joinPairs (findall sampleUrlTrailMsg) ++ findallRest sampleUrlTrailMsg ∧
      (∀ pu ∈ findall sampleUrlTrailMsg,
        (∃ c t, (pu.2 = schemeHttp ++ c :: t ∨ pu.2 = schemeHttps ++ c :: t) ∧
          isWs c = false) ∧ (∀ x ∈ pu.2, isWs x = false)) ∧
      MaxChain (findall sampleUrlTrailMsg) (findallRest sampleUrlTrailMsg) ∧
      (∀ pu ∈ findall sampleUrlTrailMsg, ∀ s, s <:+ pu.1 → urlStart s = false) ∧
      (∀ s, s <:+ findallRest sampleUrlTrailMsg → urlStart s = false) :=
  split_segments_ordered_of_no_newline sampleUrlTrailMsg (by decide) (by decide)
